import Mathlib

/-!
Verification development for the OurMeals ingredient-normalization and
grocery-aggregation engine (frontend `script.js`, most complete variant:
date-indexed meal plan with per-slot servings).

Strings are modelled as lists of characters (`Str`).  JavaScript numbers are
modelled as rationals (`ℚ`); the distinction null / NaN / finite value of a
caller-supplied numeric field is modelled with nested `Option`.  JavaScript
builtins used by the source (`String.prototype.split`, `Array.prototype.sort`
with a `localeCompare` comparator, `Intl.NumberFormat`) are modelled at the
fragment the program exercises; each such model carries a doc comment saying
so.  All other definitions are direct translations of the source functions and
keep their names.
-/

namespace OurMeals

/-- Character-list model of JavaScript strings. -/
abbrev Str := List Char

/-- Coerce a Lean string literal to the `Str` model. -/
def str (s : String) : Str := s.data

/-- Whitespace test modelling the `\s` character class on the characters the
program manipulates (space, tab, CR, LF). -/
def isWs (c : Char) : Bool := c = ' ' || c = '\t' || c = '\n' || c = '\r'

/-- ASCII decimal digit test modelling `\d`. -/
def isDigit (c : Char) : Bool := '0' ≤ c && c ≤ '9'

/-- ASCII lowering, modelling `toLowerCase` on the inputs exercised here. -/
def asciiLower (c : Char) : Char :=
  if 'A' ≤ c ∧ c ≤ 'Z' then Char.ofNat (c.toNat + 32) else c

/-- Model of `String.prototype.toLowerCase`. -/
def jsLower (s : Str) : Str := s.map asciiLower

/-- Model of `String.prototype.trim`. -/
def jsTrim (s : Str) : Str :=
  ((s.dropWhile isWs).reverse.dropWhile isWs).reverse

/-- Model of `replace(/\s+/g, " ")`: every maximal whitespace run becomes one
space. -/
def squeezeWs : Str → Str
  | [] => []
  | [c] => [if isWs c then ' ' else c]
  | c :: d :: rest =>
    if isWs c ∧ isWs d then squeezeWs (d :: rest)
    else (if isWs c then ' ' else c) :: squeezeWs (d :: rest)

/-- The cleanup pipeline of `normalizeName`:
`String(name || "").toLowerCase().trim().replace(/\s+/g, " ")`. -/
def cleanName (s : Str) : Str := squeezeWs (jsTrim (jsLower s))

/-- Test modelling `String.prototype.startsWith` / an anchored literal
alternative of a regex. -/
def startsW (pre n : Str) : Prop := n.take pre.length = pre

instance (pre n : Str) : Decidable (startsW pre n) := by
  unfold startsW; infer_instance

/-- Test modelling `String.prototype.endsWith`. -/
def endsW (suf n : Str) : Prop :=
  suf.length ≤ n.length ∧ n.drop (n.length - suf.length) = suf

instance (suf n : Str) : Decidable (endsW suf n) := by
  unfold endsW; infer_instance

/-- Alternatives of the determiner-stripping regex
`/^(?:de|d'|d’|du|des|de la|de l'|de l’)\s+/i`, in source order. -/
def DET_PREFIXES : List Str :=
  [str "de", str "d\x27", str "d’", str "du", str "des",
   str "de la", str "de l\x27", str "de l’"]

/-- One step of the alternation: the regex engine takes the first alternative
that is a prefix and is followed by at least one whitespace character, then the
greedy `\s+` consumes the whole whitespace run. -/
def stripDetGo : List Str → Str → Str
  | [], n => n
  | alt :: rest, n =>
    if startsW alt n then
      match n.drop alt.length with
      | c :: cs => if isWs c then (c :: cs).dropWhile isWs else stripDetGo rest n
      | [] => stripDetGo rest n
    else stripDetGo rest n

/-- Model of `n.replace(/^(?:de|d'|d’|du|des|de la|de l'|de l’)\s+/i, "")`
applied to an already-lowercased string. -/
def stripDet (n : Str) : Str := stripDetGo DET_PREFIXES n

/-- The bilingual irregular-plural table `IRREGULARS` (own properties only). -/
def IRREGULARS : List (Str × Str) :=
  [(str "tomatoes", str "tomato"),
   (str "potatoes", str "potato"),
   (str "leaves", str "leaf"),
   (str "tomates", str "tomate"),
   (str "oignons", str "oignon"),
   (str "poivrons", str "poivron"),
   (str "carottes", str "carotte"),
   (str "œufs", str "œuf"),
   (str "oeufs", str "œuf"),
   (str "choux", str "chou"),
   (str "eaux", str "eau"),
   (str "feuilles", str "feuille"),
   (str "gousses", str "gousse"),
   (str "tranches", str "tranche"),
   (str "pommes de terre", str "pomme de terre")]

/-- Association-list lookup modelling `IRREGULARS[n]` (own properties). -/
def lookupStr : List (Str × Str) → Str → Option Str
  | [], _ => none
  | (k, v) :: rest, n => if k = n then some v else lookupStr rest n

/-- Lookup in the irregular-plural table. -/
def irregLookup (n : Str) : Option Str := lookupStr IRREGULARS n

/-- The suffix rules of `normalizeName` (lines after the irregular lookup):
`-ies → -y`; `-es → ""` unless `-ses`; `-s → ""` unless `-ss`; `-eaux` drops
its final letter.  At most one rule fires. -/
def suffixRules (n : Str) : Str :=
  if endsW (str "ies") n then n.take (n.length - 3) ++ str "y"
  else if endsW (str "es") n ∧ ¬ endsW (str "ses") n then n.take (n.length - 2)
  else if endsW (str "s") n ∧ ¬ endsW (str "ss") n then n.take (n.length - 1)
  else if endsW (str "eaux") n then n.take (n.length - 1)
  else n

/-- Translation of `normalizeName` (frontend script): cleanup, determiner
strip, irregular-table lookup (returning immediately on a hit), then the
suffix rules. -/
def normalizeName (s : Str) : Str :=
  let n := stripDet (cleanName s)
  match irregLookup n with
  | some v => v
  | none => suffixRules n

example : normalizeName (str "Tomates") = str "tomate" := by decide
example : normalizeName (str "de de sel") = str "de sel" := by decide
example : normalizeName (str "de sel") = str "sel" := by decide
example : normalizeName (str "glass") = str "glass" := by decide

/-- The cleanup of `normalizeUnit`:
`String(unit).toLowerCase().replace(/\./g, "").replace(/\s+/g, "")` —
lowercase, then remove every period and every whitespace character. -/
def cleanUnit (s : Str) : Str :=
  (jsLower s).filter (fun c => c ≠ '.' && !(isWs c))

/-- The four tokens `normalizeUnit` treats as mis-captured French
prepositions: `de`, `d`, `d'`, `d’`. -/
def PREP_TOKENS : List Str := [str "de", str "d", str "d\x27", str "d’"]

/-- The synonym chain of `normalizeUnit`, one pair per source `if`-line, in
source order: left the spellings tested, right the replacement. -/
def SYNONYMS : List (List Str × Str) :=
  [([str "kgs"], str "kg"),
   ([str "grams", str "gr", str "gms"], str "g"),
   ([str "pound", str "pounds"], str "lb"),
   ([str "ounce", str "ounces"], str "oz"),
   ([str "litre", str "litres"], str "l"),
   ([str "milliliter", str "millilitre", str "milliliters", str "millilitres"],
    str "ml"),
   ([str "teaspoon", str "teaspoons"], str "tsp"),
   ([str "tablespoon", str "tablespoons"], str "tbsp"),
   ([str "pcs"], str "pc"),
   ([str "pieces"], str "piece"),
   ([str "gramme", str "grammes"], str "g"),
   ([str "kilogramme", str "kilogrammes"], str "kg"),
   ([str "litre", str "litres"], str "l"),
   ([str "millilitre", str "millilitres"], str "ml"),
   ([str "tasse", str "tasses"], str "cup"),
   ([str "cac", str "càc", str "cc", str "càco", str "cuillereacafe",
     str "cuillèreàcafé", str "cuillereàcafé"], str "tsp"),
   ([str "cas", str "càs", str "cs", str "cuillereasoupe",
     str "cuillèreàsoupe", str "cuillereàsoupe"], str "tbsp"),
   ([str "piece", str "pièce", str "pièces"], str "piece"),
   ([str "gousse", str "gousses", str "tranche", str "tranches",
     str "sachet", str "sachets", str "boite", str "boites",
     str "boîte", str "boîtes"], str "unit")]

/-- Run the synonym chain: each step reassigns `u` when it equals one of the
step's spellings, exactly like the source's sequence of `if (u === ...)`
statements. -/
def applySynonyms (u : Str) : Str :=
  SYNONYMS.foldl (fun acc p => if acc ∈ p.1 then p.2 else acc) u

/-- Every spelling tested anywhere in the synonym chain. -/
def synonymKeys : List Str := SYNONYMS.foldr (fun p acc => p.1 ++ acc) []

/-- Translation of `normalizeUnit`: falsy (empty) input gives `null`; the
cleaned token gives `null` when it is a mis-captured preposition; otherwise
the synonym chain runs and the result is returned. -/
def normalizeUnit (s : Str) : Option Str :=
  if s = [] then none
  else
    let u := cleanUnit s
    if u ∈ PREP_TOKENS then none
    else some (applySynonyms u)

example : normalizeUnit (str "c.à.s") = some (str "tbsp") := by decide
example : normalizeUnit (str "Tasses") = some (str "cup") := by decide
example : normalizeUnit (str "de") = none := by decide
example : normalizeUnit (str "pincée") = some (str "pincée") := by decide

/-- The mass conversion table `MASS_UNITS` (factors to grams). -/
def MASS_UNITS : List (Str × ℚ) :=
  [(str "kg", 1000), (str "g", 1), (str "lb", 45359237/100000),
   (str "lbs", 45359237/100000), (str "oz", 28349523125/1000000000)]

/-- The volume conversion table `VOLUME_UNITS` (factors to milliliters). -/
def VOLUME_UNITS : List (Str × ℚ) :=
  [(str "l", 1000), (str "liter", 1000), (str "liters", 1000),
   (str "dl", 100), (str "cl", 10), (str "ml", 1), (str "tsp", 5),
   (str "tbsp", 15), (str "cup", 240), (str "cups", 240)]

/-- The count-like unit set `COUNT_UNITS`. -/
def COUNT_UNITS : List Str :=
  [str "unit", str "pc", str "piece", str "x", str "count"]

/-- Association-list lookup modelling `TABLE[unit]` on the conversion
tables (own properties). -/
def lookupQ : List (Str × ℚ) → Str → Option ℚ
  | [], _ => none
  | (k, v) :: rest, u => if k = u then some v else lookupQ rest u

/-- Unit categories (`"mass"`, `"volume"`, `"count"`); `Option Cat` with
`none` for the source's `null`. -/
inductive Cat
  | mass
  | volume
  | count
deriving DecidableEq, Repr

/-- Translation of `unitCategory`: falsy unit gives `null`; membership in the
mass table, volume table, then count set decides the category. -/
def unitCategory (u : Option Str) : Option Cat :=
  match u with
  | none => none
  | some uu =>
    if uu = [] then none
    else if (lookupQ MASS_UNITS uu).isSome then some .mass
    else if (lookupQ VOLUME_UNITS uu).isSome then some .volume
    else if uu ∈ COUNT_UNITS then some .count
    else none

/-- Conversion factor `TABLE[unit] || 1` used by `toBase`. -/
def unitFactor (tbl : List (Str × ℚ)) (u : Option Str) : ℚ :=
  match u with
  | none => 1
  | some uu => match lookupQ tbl uu with
    | some f => f
    | none => 1

/-- Translation of `toBase`: mass scales to grams, volume to milliliters,
count is the identity with canonical unit `"unit"`, and a null category
returns the quantity with `unit || ""`. -/
def toBase (qty : ℚ) (u : Option Str) (cat : Option Cat) : ℚ × Str :=
  match cat with
  | some .mass => (qty * unitFactor MASS_UNITS u, str "g")
  | some .volume => (qty * unitFactor VOLUME_UNITS u, str "ml")
  | some .count => (qty, str "unit")
  | none => (qty, u.getD [])

example : toBase 1 (some (str "kg")) (some .mass) = (1000, str "g") := by
  with_unfolding_all rfl
example : toBase 1 (some (str "tbsp")) (some .volume) = (15, str "ml") := by
  with_unfolding_all rfl
example : toBase 3 (some (str "unit")) (some .count) = (3, str "unit") := by
  with_unfolding_all rfl

/-- An ingredient entry as stored: a legacy free-text string or a structured
record.  For the structured record, `qty` models the caller-supplied JS value
`ing.qty`: `none` is null/undefined, `some none` a value whose `Number`
coercion is not finite, `some (some q)` a finite number.  `unit`, `name` and
`raw` model possibly-absent string fields (`none` = absent or, for `unit`,
empty — both are falsy where the source tests them). -/
inductive Ingredient
  | text (s : Str)
  | structured (qty : Option (Option ℚ)) (unit : Option Str)
      (name : Option Str) (raw : Option Str)
deriving DecidableEq, Repr

/-- Result record of `parseIngredientClient`. -/
structure Parsed where
  qty : Option ℚ
  unit : Option Str
  name : Str
  raw : Str
deriving DecidableEq, Repr

/-- Digit-run value: the natural number denoted by a list of ASCII digits. -/
def digitsToNat (s : Str) : ℕ :=
  s.foldl (fun a c => 10 * a + (c.toNat - 48)) 0

/-- Value of `parseFloat(m[1].replace(",", "."))`: integer digits plus an
optional fraction-digit run. -/
def qtyVal (d : Str) (f : Option Str) : ℚ :=
  (digitsToNat d : ℚ) +
    (match f with
     | some fd => (digitsToNat fd : ℚ) / (10 : ℚ) ^ fd.length
     | none => 0)

/-- Head-is-whitespace test on a character list. -/
def headIsWs : Str → Bool
  | a :: _ => isWs a
  | [] => false

/-- Model of matching `\s*([^\s\d]+)?\s+(.*)$` against the remainder `r`
after the numeric token, following the regex engine's greedy/backtracking
order: the whitespace run, then a maximal non-space non-digit token kept only
when at least one whitespace character follows it; otherwise, when a leading
whitespace character exists, the unit group is dropped and everything after
the first whitespace run is the name. -/
def matchAfterQty (r : Str) : Option (Option Str × Str) :=
  let w := r.takeWhile isWs
  let rest := r.dropWhile isWs
  match rest with
  | [] => if w = [] then none else some (none, [])
  | c :: cs =>
    let t := (c :: cs).takeWhile (fun ch => !(isWs ch) && !(isDigit ch))
    let after := (c :: cs).drop t.length
    if t ≠ [] ∧ headIsWs after = true then
      some (some t, after.dropWhile isWs)
    else if w ≠ [] then some (none, c :: cs)
    else none

/-- The optional decimal part `(?:[.,]\d+)?` after the integer digits:
fraction digits and the remainder, when the remainder starts with a decimal
separator followed by at least one digit. -/
def fracSplit : Str → Option (Str × Str)
  | c :: r1 =>
    if c = '.' ∨ c = ',' then
      let fd := r1.takeWhile isDigit
      if fd = [] then none else some (fd, r1.drop fd.length)
    else none
  | [] => none

/-- Model of `text.match(/^(\d+(?:[.,]\d+)?)\s*([^\s\d]+)?\s+(.*)$/u)`: an
initial digit run, an optional decimal part tried greedily first (with
backtracking to the integer-only reading when the rest of the pattern fails),
then `matchAfterQty`.  Returns the parsed quantity, the optional unit token,
and the name group. -/
def parseLead (t : Str) : Option (ℚ × Option Str × Str) :=
  let d := t.takeWhile isDigit
  if d = [] then none
  else
    let r0 := t.drop d.length
    match fracSplit r0 with
    | some (fd, r2) =>
      match matchAfterQty r2 with
      | some p => some (qtyVal d (some fd), p.1, p.2)
      | none =>
        match matchAfterQty r0 with
        | some p => some (qtyVal d none, p.1, p.2)
        | none => none
    | none =>
      match matchAfterQty r0 with
      | some p => some (qtyVal d none, p.1, p.2)
      | none => none

/-- Model of the JS `x || null` coercion on an optional string: an empty
string is falsy and collapses to `none`. -/
def jsOrNull : Option Str → Option Str
  | some [] => none
  | x => x

/-- Translation of `parseIngredientClient`: a structured object is read
field-by-field (never `null`); a free-text entry is trimmed, rejected only
when empty, then matched for a leading quantity and optional unit token; the
name always passes through `normalizeName`. -/
def parseIngredientClient : Ingredient → Option Parsed
  | .structured qf uf nf rf =>
    some { qty := qf.bind id,
           unit := (jsOrNull uf).bind normalizeUnit,
           name := normalizeName (nf.getD []),
           raw := rf.getD [] }
  | .text s =>
    let t := jsTrim s
    if t = [] then none
    else
      match parseLead t with
      | some (q, uTok, nm) =>
        some { qty := some q, unit := uTok.bind normalizeUnit,
               name := normalizeName nm, raw := t }
      | none =>
        some { qty := none, unit := none, name := normalizeName t, raw := t }

example : parseIngredientClient (.text (str "200 g flour")) =
    some ⟨some 200, some (str "g"), str "flour", str "200 g flour"⟩ := by
  with_unfolding_all rfl
example : parseIngredientClient (.text (str "2 tomates")) =
    some ⟨some 2, none, str "tomate", str "2 tomates"⟩ := by
  with_unfolding_all rfl
example : parseIngredientClient (.text (str "sel")) =
    some ⟨none, none, str "sel", str "sel"⟩ := by with_unfolding_all rfl
example : parseIngredientClient (.text (str "1,5 x")) =
    some ⟨some (3/2), none, str "x", str "1,5 x"⟩ := by
  with_unfolding_all rfl
example : parseIngredientClient (.text (str "1.5 dl lait")) =
    some ⟨some (3/2), some (str "dl"), str "lait", str "1.5 dl lait"⟩ := by
  with_unfolding_all rfl

/-- Decimal digits of a natural number, most significant first (fuel-based
helper for rendering). -/
def natDigitsGo : ℕ → ℕ → Str
  | 0, _ => []
  | fuel + 1, n =>
    if n < 10 then [Char.ofNat (48 + n)]
    else natDigitsGo fuel (n / 10) ++ [Char.ofNat (48 + n % 10)]

/-- Decimal rendering of a natural number. -/
def natDigits (n : ℕ) : Str := natDigitsGo (n + 1) n

/-- Rounding `Math.round(n * 100) / 100` (JS rounds half toward positive
infinity, i.e. `floor (x + 1/2)`). -/
def jsRound2 (q : ℚ) : ℚ := ((⌊q * 100 + 1/2⌋ : ℤ) : ℚ) / 100

/-- Rendering of a rounded value given as an integer count of hundredths,
modelling `Intl.NumberFormat("fr-FR", { maximumFractionDigits: 2 })` for the
magnitudes the program displays here (|value| < 1000, so no digit grouping):
decimal comma, no trailing zero fraction digits, leading minus sign on
negative values. -/
def renderRounded (m : ℤ) : Str :=
  let sign : Str := if m < 0 then str "-" else []
  let a : ℕ := m.natAbs
  let ip := a / 100
  let fr := a % 100
  sign ++ natDigits ip ++
    (if fr = 0 then []
     else if fr % 10 = 0 then str "," ++ natDigits (fr / 10)
     else str "," ++ (if fr < 10 then str "0" else []) ++ natDigits fr)

/-- Translation of `formatNumber`: round to 2 decimals
(`Math.round(n * 100) / 100`), then render with the locale formatter. -/
def formatNumber (q : ℚ) : Str := renderRounded ⌊q * 100 + 1/2⌋

example : formatNumber 1 = str "1" := by with_unfolding_all rfl
example : formatNumber (3/2) = str "1,5" := by with_unfolding_all rfl
example : formatNumber (251/250) = str "1" := by with_unfolding_all rfl

/-- A recipe as seen by the aggregator.  `baseServings` models the JS value
`recipe.baseServings`: `none` when absent or when its `Number` coercion is not
finite, `some q` for a finite value. -/
structure Recipe where
  id : Str
  baseServings : Option ℚ
  ingredients : List Ingredient
deriving DecidableEq, Repr

/-- A meal-plan cell as read by `generateGroceryList`: absent, a legacy
string id, or an object with optional id and servings.  `servings` is modelled
like other caller-supplied numbers: `none` null/undefined, `some none`
non-finite, `some (some q)` finite. -/
inductive SlotVal
  | absent
  | strId (id : Str)
  | obj (id : Option Str) (servings : Option (Option ℚ))
deriving DecidableEq, Repr

/-- The recipe id read from a slot (`""` when missing, as in the source). -/
def slotIdOf : SlotVal → Str
  | .absent => []
  | .strId i => i
  | .obj i _ => i.getD []

/-- The slot's `desiredServings`: `Math.floor` of a finite servings value
that is at least 1, otherwise `null`. -/
def slotDesired : SlotVal → Option ℤ
  | .obj _ (some (some q)) => if 1 ≤ q then some ⌊q⌋ else none
  | _ => none

/-- The recipe's clamped base servings: `Math.floor` of a finite value that is
at least 1, otherwise 1. -/
def baseServOf (r : Recipe) : ℤ :=
  match r.baseServings with
  | some q => if 1 ≤ q then ⌊q⌋ else 1
  | none => 1

/-- The scale factor `desired / baseServ` computed per slot: the slot's
desired servings default to the clamped base servings when missing or
invalid. -/
def slotScale (r : Recipe) (sv : SlotVal) : ℚ :=
  let b := baseServOf r
  let d := (slotDesired sv).getD b
  (d : ℚ) / (b : ℚ)

/-- Aggregation state: the insertion-ordered `sums` map (keys are the strings
`name||baseUnit`) and the insertion-ordered `namesOnly` set. -/
structure AggSt where
  sums : List (Str × ℚ)
  namesOnly : List Str
deriving DecidableEq, Repr

/-- Model of `Map.prototype.get(key) || 0`. -/
def mapGet : List (Str × ℚ) → Str → ℚ
  | [], _ => 0
  | (k', v) :: rest, k => if k' = k then v else mapGet rest k

/-- Model of `Map.prototype.set`: updates in place, appends a fresh key at the
end, preserving insertion order. -/
def mapSet : List (Str × ℚ) → Str → ℚ → List (Str × ℚ)
  | [], k, v => [(k, v)]
  | (k', v') :: rest, k, v =>
    if k' = k then (k, v) :: rest else (k', v') :: mapSet rest k v

/-- Model of `Set.prototype.add`: appends when not already present. -/
def addName (l : List Str) (n : Str) : List Str :=
  if n ∈ l then l else l ++ [n]

/-- Processing of one ingredient inside the slot loop of
`generateGroceryList`: parse, skip empty names, route quantity-less entries
to the names-only set, re-normalize the unit, apply the count fallback for an
unrecognized category, convert to base, and accumulate under the string key
`name||baseUnit`. -/
def processIng (factor : ℚ) (st : AggSt) (ing : Ingredient) : AggSt :=
  match parseIngredientClient ing with
  | none => st
  | some p =>
    if p.name = [] then st
    else
      match p.qty with
      | none => { st with namesOnly := addName st.namesOnly p.name }
      | some q =>
        let u0 := (jsOrNull p.unit).bind normalizeUnit
        let uc : Option Str × Cat :=
          match unitCategory u0 with
          | none => (some (str "unit"), .count)
          | some c => (u0, c)
        let qb := toBase (q * factor) uc.1 (some uc.2)
        let key := p.name ++ str "||" ++ qb.2
        { st with sums := mapSet st.sums key (mapGet st.sums key + qb.1) }

/-- Processing of one slot: skip empty ids and unresolved recipes, compute
the scale factor, then fold the recipe's ingredients. -/
def processSlot (catalog : List Recipe) (st : AggSt) (sv : SlotVal) : AggSt :=
  let id := slotIdOf sv
  if id = [] then st
  else
    match catalog.find? (fun r => decide (r.id = id)) with
    | none => st
    | some r => r.ingredients.foldl (processIng (slotScale r sv)) st

/-- The aggregation loop of `generateGroceryList` over the sequence of slot
values encountered while iterating the date range and meals, starting from an
empty map and an empty set. -/
def runSlots (catalog : List Recipe) (slots : List SlotVal) : AggSt :=
  slots.foldl (processSlot catalog) ⟨[], []⟩

/-- First index at which `sep` occurs in `s` (prefix match), modelling the
search underlying `String.prototype.split`. -/
def findOcc (sep : Str) : Str → Option ℕ
  | [] => none
  | c :: rest =>
    if startsW sep (c :: rest) then some 0
    else (findOcc sep rest).map (· + 1)

/-- Model of `key.split("||")[0]`: the chunk before the first occurrence of
the separator, or the whole string when the separator does not occur. -/
def firstComp (s : Str) : Str :=
  match findOcc (str "||") s with
  | none => s
  | some i => s.take i

/-- Model of `key.split("||")[1]`: the chunk between the first and second
occurrences of the separator (`none` when the separator does not occur,
matching the JS `undefined`). -/
def secondComp (s : Str) : Option Str :=
  match findOcc (str "||") s with
  | none => none
  | some i => some (firstComp (s.drop (i + 2)))

/-- The aggregation key for a name and canonical unit. -/
def keyOf (n u : Str) : Str := n ++ str "||" ++ u

/-- The canonical units a quantified total can be recorded under. -/
def canonicalUnits : List Str := [str "g", str "ml", str "unit"]

/-- Predicate for names free of the pipe character (so the string key
round-trips through `split("||")`). -/
def noPipe (n : Str) : Prop := ¬ '|' ∈ n

instance (n : Str) : Decidable (noPipe n) := by
  unfold noPipe; infer_instance

/-- The display-unit computation of the items loop: `unit` (as re-split from
the key) becomes `pièces`/`pièce` depending on whether the raw total exceeds
1; anything else passes through; a missing or empty chunk renders as no unit
segment. -/
def dispUnit (key : Str) (total : ℚ) : Str :=
  match secondComp key with
  | none => []
  | some u =>
    if u = str "unit" then (if 1 < total then str "pièces" else str "pièce")
    else u

/-- One quantified display line:
`` `${formatNumber(total)} ${displayUnit ? displayUnit + " " : ""}${name}` ``. -/
def itemOf (p : Str × ℚ) : Str :=
  formatNumber p.2 ++ str " " ++
    (if dispUnit p.1 p.2 = [] then [] else dispUnit p.1 p.2 ++ str " ") ++
    firstComp p.1

/-- The bare lines pushed after the quantified ones: names-only entries whose
name is not the first split component of any quantified key. -/
def bareLines (catalog : List Recipe) (slots : List SlotVal) : List Str :=
  let st := runSlots catalog slots
  let namesIn := st.sums.map (fun p => firstComp p.1)
  st.namesOnly.filter (fun nm => decide (¬ nm ∈ namesIn))

/-- The items array handed to `renderGroceryList`: quantified lines in map
insertion order, then the surviving bare names in set insertion order. -/
def groceryItems (catalog : List Recipe) (slots : List SlotVal) : List Str :=
  (runSlots catalog slots).sums.map itemOf ++ bareLines catalog slots

/-- Accent folding + lowercasing used to model
`localeCompare(b, "fr", { sensitivity: "base" })` on the Latin strings this
program displays. -/
def baseChar (c : Char) : Char :=
  let c := asciiLower c
  if c = 'à' ∨ c = 'â' ∨ c = 'ä' then 'a'
  else if c = 'ç' then 'c'
  else if c = 'è' ∨ c = 'é' ∨ c = 'ê' ∨ c = 'ë' then 'e'
  else if c = 'î' ∨ c = 'ï' then 'i'
  else if c = 'ô' ∨ c = 'ö' then 'o'
  else if c = 'ù' ∨ c = 'û' ∨ c = 'ü' then 'u'
  else c

/-- Collation key for the modelled French base-sensitivity comparison. -/
def frKey (s : Str) : Str := s.map baseChar

/-- Code-point lexicographic less-or-equal on character lists. -/
def lexLe : Str → Str → Bool
  | [], _ => true
  | _ :: _, [] => false
  | a :: as, b :: bs =>
    if a.toNat < b.toNat then true
    else if b.toNat < a.toNat then false
    else lexLe as bs

/-- The comparator passed to `Array.prototype.sort` in `renderGroceryList`,
modelled as the non-positive-comparison relation of the French base-sensitive
collation on whole display strings. -/
def dispLe (a b : Str) : Prop := lexLe (frKey a) (frKey b) = true

instance (a b : Str) : Decidable (dispLe a b) := by
  unfold dispLe; infer_instance

/-- Model of `items.slice().sort((a, b) => a.localeCompare(b, "fr",
{ sensitivity: "base" }))`: a stable sort by the modelled comparator
(JS sorts are stable; insertion sort keeping earlier elements first on ties
models this). -/
def sortFr (l : List Str) : List Str := l.insertionSort dispLe

/-- The list rendered by `renderGroceryList`: all display items sorted
together by the locale comparator. -/
def renderedGrocery (catalog : List Recipe) (slots : List SlotVal) :
    List Str :=
  sortFr (groceryItems catalog slots)

/-- The quantified contribution of one ingredient, mirroring the quantified
branch of `processIng`: the key `name||baseUnit` and the scaled base
quantity, or `none` when the entry is skipped or quantity-less. -/
def contribOf (factor : ℚ) (ing : Ingredient) : Option (Str × ℚ) :=
  match parseIngredientClient ing with
  | none => none
  | some p =>
    if p.name = [] then none
    else
      match p.qty with
      | none => none
      | some q =>
        let u0 := (jsOrNull p.unit).bind normalizeUnit
        let uc : Option Str × Cat :=
          match unitCategory u0 with
          | none => (some (str "unit"), .count)
          | some c => (u0, c)
        let qb := toBase (q * factor) uc.1 (some uc.2)
        some (p.name ++ str "||" ++ qb.2, qb.1)

/-- The quantified contributions of one slot, in processing order. -/
def slotContribs (catalog : List Recipe) (sv : SlotVal) : List (Str × ℚ) :=
  let id := slotIdOf sv
  if id = [] then []
  else
    match catalog.find? (fun r => decide (r.id = id)) with
    | none => []
    | some r => r.ingredients.filterMap (contribOf (slotScale r sv))

/-- The quantified contributions of a whole run, in processing order. -/
def runContribs (catalog : List Recipe) : List SlotVal → List (Str × ℚ)
  | [] => []
  | sv :: rest => slotContribs catalog sv ++ runContribs catalog rest

/-- Sum of the contributions recorded under one key. -/
def sumFor : List (Str × ℚ) → Str → ℚ
  | [], _ => 0
  | (k', v) :: rest, k => (if k' = k then v else 0) + sumFor rest k

/-- Specification-side total: the sum of exactly those contributions of the
run whose key is `k`. -/
def contribTotal (catalog : List Recipe) (slots : List SlotVal) (k : Str) :
    ℚ :=
  sumFor (runContribs catalog slots) k

/-- Modelled from the claim wording of C3: quantified lines sorted
case-insensitively by name and then by canonical unit. -/
def specQuantLe (p q : Str × ℚ) : Prop :=
  (frKey (firstComp p.1) = frKey (firstComp q.1) ∧
    lexLe (frKey ((secondComp p.1).getD [])) (frKey ((secondComp q.1).getD []))
      = true) ∨
  (frKey (firstComp p.1) ≠ frKey (firstComp q.1) ∧
    lexLe (frKey (firstComp p.1)) (frKey (firstComp q.1)) = true)

instance (p q : Str × ℚ) : Decidable (specQuantLe p q) := by
  unfold specQuantLe; infer_instance

/-- Modelled from the claim wording of C3: the output as the claim states
it — quantified lines first, sorted by name then unit, followed by the bare
lines sorted the same way. -/
def specRenderC3 (catalog : List Recipe) (slots : List SlotVal) : List Str :=
  ((runSlots catalog slots).sums.insertionSort specQuantLe).map itemOf ++
    sortFr (bareLines catalog slots)

/-- Modelled from the claim wording of C4: the offending (missing, invalid or
non-positive) slot servings value is treated as 1 when computing the scale
factor `desiredServings / baseServings`. -/
def specScaleC4 (r : Recipe) (sv : SlotVal) : ℚ :=
  ((slotDesired sv).getD 1 : ℚ) / (baseServOf r : ℚ)

/-- Modelled from the claim wording of C9: the plural unit noun is chosen
if and only if the rounded (2-decimal) total exceeds 1. -/
def specDispUnitC9 (key : Str) (total : ℚ) : Str :=
  match secondComp key with
  | none => []
  | some u =>
    if u = str "unit" then
      (if 1 < jsRound2 total then str "pièces" else str "pièce")
    else u

/-- Modelled from the claim wording of C9: a quantified display line built
with the claim's pluralization rule. -/
def specItemOfC9 (p : Str × ℚ) : Str :=
  formatNumber p.2 ++ str " " ++
    (if specDispUnitC9 p.1 p.2 = [] then []
     else specDispUnitC9 p.1 p.2 ++ str " ") ++
    firstComp p.1

/-- Non-negativity condition on a stored ingredient entry: a structured
record carries no negative finite quantity (free-text entries always parse to
non-negative quantities). -/
def nonnegIng : Ingredient → Prop
  | .text _ => True
  | .structured qf _ _ _ =>
    match qf with
    | some (some q) => 0 ≤ q
    | _ => True

instance (ing : Ingredient) : Decidable (nonnegIng ing) := by
  unfold nonnegIng
  cases ing with
  | text s => exact inferInstanceAs (Decidable True)
  | structured qf uf nf rf =>
    cases qf with
    | none => exact inferInstanceAs (Decidable True)
    | some o =>
      cases o with
      | none => exact inferInstanceAs (Decidable True)
      | some q => exact inferInstanceAs (Decidable (0 ≤ q))

/-- The accumulation step `sums.set(key, (sums.get(key) || 0) + qtyBase)`. -/
def addC (m : List (Str × ℚ)) (p : Str × ℚ) : List (Str × ℚ) :=
  mapSet m p.1 (mapGet m p.1 + p.2)

/-- Invariant preserved by the aggregation loop: key list without duplicates,
names-only set without duplicates and without empty names. -/
def AggInv (st : AggSt) : Prop :=
  (st.sums.map Prod.fst).Nodup ∧ st.namesOnly.Nodup ∧
    ∀ m ∈ st.namesOnly, m ≠ []

/-- A slot assigning a recipe id with a concrete (natural) servings count. -/
def slotFor (rid : Str) (s : ℕ) : SlotVal :=
  .obj (some rid) (some (some (s : ℚ)))

/-- C1 counterexample input: the name `a||b` appears quantity-less in one
recipe and quantified (count fallback) in another. -/
def c1exCatalog : List Recipe :=
  [⟨str "r1", some 1, [.text (str "a||b")]⟩,
   ⟨str "r2", some 1,
    [.structured (some (some 1)) none (some (str "a||b")) none]⟩]

def c1exSlots : List SlotVal := [.strId (str "r1"), .strId (str "r2")]

def c1wCatalog : List Recipe :=
  [⟨str "r", some 1,
    [.structured (some (some 2)) none (some (str "x")) none]⟩]

def c1wSlots : List SlotVal := [.strId (str "r")]

def c3exCatalog : List Recipe :=
  [⟨str "r", some 1, [.text (str "100 g b"), .text (str "2 x a")]⟩]

def c3exSlots : List SlotVal := [.strId (str "r")]

def c8exCatalog : List Recipe :=
  [⟨str "r", some 1,
    [.structured (some (some (-5))) none (some (str "x")) none]⟩]

def c8exSlots : List SlotVal := [.strId (str "r")]

def c8wCatalog : List Recipe :=
  [⟨str "r", some 1, [.text (str "200 g flour")]⟩]

def c8wSlots : List SlotVal := [.strId (str "r")]

def c9exCatalog : List Recipe :=
  [⟨str "r", some 1,
    [.structured (some (some (251/250))) none (some (str "x")) none]⟩]

def c9exSlots : List SlotVal := [.strId (str "r")]

lemma mapGet_mapSet_self (m : List (Str × ℚ)) (k : Str) (v : ℚ) :
    mapGet (mapSet m k v) k = v := by
  induction m with
  | nil => simp [mapSet, mapGet]
  | cons p rest ih =>
    obtain ⟨k', v'⟩ := p
    by_cases h : k' = k
    · simp [mapSet, mapGet, h]
    · simp [mapSet, mapGet, h, ih]

lemma mapGet_mapSet_other (m : List (Str × ℚ)) {k k' : Str} (v : ℚ)
    (h : k' ≠ k) : mapGet (mapSet m k v) k' = mapGet m k' := by
  have h' : k ≠ k' := Ne.symm h
  induction m with
  | nil => simp [mapSet, mapGet, h']
  | cons p rest ih =>
    obtain ⟨k₀, v₀⟩ := p
    by_cases h₀ : k₀ = k
    · subst h₀
      simp [mapSet, mapGet, h']
    · simp [mapSet, mapGet, h₀, ih]

lemma sumFor_append (a b : List (Str × ℚ)) (k : Str) :
    sumFor (a ++ b) k = sumFor a k + sumFor b k := by
  induction a with
  | nil => simp [sumFor]
  | cons p rest ih =>
    obtain ⟨k', v⟩ := p
    simp [sumFor, ih, add_assoc]

lemma mapGet_foldl_addC (l : List (Str × ℚ)) (m : List (Str × ℚ)) (k : Str) :
    mapGet (l.foldl addC m) k = mapGet m k + sumFor l k := by
  induction l generalizing m with
  | nil => simp [sumFor]
  | cons p rest ih =>
    obtain ⟨k', v⟩ := p
    simp only [List.foldl_cons, sumFor, ih]
    by_cases h : k' = k
    · subst h
      rw [addC, mapGet_mapSet_self]
      simp [add_assoc]
    · rw [addC, mapGet_mapSet_other _ _ (Ne.symm h)]
      simp [h]

lemma processIng_sums (f : ℚ) (st : AggSt) (ing : Ingredient) :
    (processIng f st ing).sums =
      match contribOf f ing with
      | none => st.sums
      | some p => addC st.sums p := by
  unfold processIng contribOf addC
  cases hp : parseIngredientClient ing with
  | none => rfl
  | some p =>
    by_cases hn : p.name = []
    · simp [hn]
    · cases hq : p.qty with
      | none => simp [hn, hq]
      | some q => simp [hn, hq]

lemma processIng_namesOnly (f : ℚ) (st : AggSt) (ing : Ingredient) :
    (processIng f st ing).namesOnly = st.namesOnly ∨
      ∃ nm, nm ≠ [] ∧
        (processIng f st ing).namesOnly = addName st.namesOnly nm := by
  unfold processIng
  cases hp : parseIngredientClient ing with
  | none => exact Or.inl rfl
  | some p =>
    by_cases hn : p.name = []
    · simp [hn]
    · cases hq : p.qty with
      | none => exact Or.inr ⟨p.name, hn, by simp [hn, hq]⟩
      | some q => simp [hn, hq]

lemma foldl_processIng_sums (f : ℚ) (ings : List Ingredient) (st : AggSt) :
    (ings.foldl (processIng f) st).sums =
      (ings.filterMap (contribOf f)).foldl addC st.sums := by
  induction ings generalizing st with
  | nil => rfl
  | cons i rest ih =>
    simp only [List.foldl_cons, ih, List.filterMap_cons]
    cases hc : contribOf f i with
    | none => rw [processIng_sums, hc]
    | some p => rw [List.foldl_cons, processIng_sums, hc]

lemma processSlot_sums (catalog : List Recipe) (st : AggSt) (sv : SlotVal) :
    (processSlot catalog st sv).sums =
      (slotContribs catalog sv).foldl addC st.sums := by
  unfold processSlot slotContribs
  by_cases hid : slotIdOf sv = []
  · simp [hid]
  · simp only [hid, if_neg hid, ite_false]
    cases hf : catalog.find? (fun r => decide (r.id = slotIdOf sv)) with
    | none => rfl
    | some r => exact foldl_processIng_sums _ _ _

lemma foldl_processSlot_sums_get (catalog : List Recipe)
    (slots : List SlotVal) (st : AggSt) (k : Str) :
    mapGet ((slots.foldl (processSlot catalog) st).sums) k =
      mapGet st.sums k + sumFor (runContribs catalog slots) k := by
  induction slots generalizing st with
  | nil => simp [runContribs, sumFor]
  | cons sv rest ih =>
    simp only [List.foldl_cons, ih, runContribs, sumFor_append]
    rw [processSlot_sums, mapGet_foldl_addC, add_assoc]

/-- Refinement of the aggregation loop: the total recorded under any key is
exactly the sum of the run's contributions carrying that key. -/
theorem runSlots_mapGet (catalog : List Recipe) (slots : List SlotVal)
    (k : Str) :
    mapGet (runSlots catalog slots).sums k = contribTotal catalog slots k := by
  unfold runSlots contribTotal
  rw [foldl_processSlot_sums_get]
  simp [mapGet]

lemma mapSet_keys (m : List (Str × ℚ)) (k : Str) (v : ℚ) :
    (mapSet m k v).map Prod.fst =
      if k ∈ m.map Prod.fst then m.map Prod.fst
      else m.map Prod.fst ++ [k] := by
  induction m with
  | nil => simp [mapSet]
  | cons p rest ih =>
    obtain ⟨k₀, v₀⟩ := p
    by_cases h₀ : k₀ = k
    · subst h₀
      simp [mapSet]
    · simp only [mapSet, if_neg h₀, List.map_cons, ih]
      by_cases hm : k ∈ rest.map Prod.fst
      · simp [hm, Ne.symm h₀]
      · simp [hm, Ne.symm h₀]

lemma nodup_append_singleton {l : List Str} {n : Str} (h : l.Nodup)
    (hm : n ∉ l) : (l ++ [n]).Nodup := by
  refine List.Nodup.append h (List.nodup_singleton n) ?_
  intro a ha hin
  simp only [List.mem_singleton] at hin
  subst hin
  exact hm ha

lemma mapSet_keys_nodup (m : List (Str × ℚ)) (k : Str) (v : ℚ)
    (h : (m.map Prod.fst).Nodup) : ((mapSet m k v).map Prod.fst).Nodup := by
  rw [mapSet_keys]
  by_cases hm : k ∈ m.map Prod.fst
  · simpa [hm]
  · simpa [hm] using nodup_append_singleton h hm

lemma addName_nodup (l : List Str) (n : Str) (h : l.Nodup) :
    (addName l n).Nodup := by
  unfold addName
  by_cases hm : n ∈ l
  · simpa [hm]
  · simpa [hm] using nodup_append_singleton h hm

lemma addName_forall_ne_nil (l : List Str) (n : Str) (hn : n ≠ [])
    (h : ∀ m ∈ l, m ≠ []) : ∀ m ∈ addName l n, m ≠ [] := by
  unfold addName
  by_cases hm : n ∈ l
  · simpa [hm] using h
  · intro m hmem
    simp only [if_neg hm, List.mem_append, List.mem_singleton] at hmem
    rcases hmem with hmem | hmem
    · exact h m hmem
    · exact hmem ▸ hn

lemma processIng_inv (f : ℚ) (st : AggSt) (ing : Ingredient)
    (h : AggInv st) : AggInv (processIng f st ing) := by
  obtain ⟨h₁, h₂, h₃⟩ := h
  refine ⟨?_, ?_, ?_⟩
  · rw [processIng_sums]
    cases contribOf f ing with
    | none => exact h₁
    | some p => exact mapSet_keys_nodup _ _ _ h₁
  · rcases processIng_namesOnly f st ing with hn | ⟨nm, _, hn⟩
    · exact hn ▸ h₂
    · exact hn ▸ addName_nodup _ _ h₂
  · rcases processIng_namesOnly f st ing with hn | ⟨nm, hnm, hn⟩
    · exact hn ▸ h₃
    · exact hn ▸ addName_forall_ne_nil _ _ hnm h₃

lemma foldl_processIng_inv (f : ℚ) (ings : List Ingredient) (st : AggSt)
    (h : AggInv st) : AggInv (ings.foldl (processIng f) st) := by
  induction ings generalizing st with
  | nil => exact h
  | cons i rest ih => exact ih _ (processIng_inv _ _ _ h)

lemma processSlot_inv (catalog : List Recipe) (st : AggSt) (sv : SlotVal)
    (h : AggInv st) : AggInv (processSlot catalog st sv) := by
  unfold processSlot
  by_cases hid : slotIdOf sv = []
  · simpa [hid]
  · simp only [hid, ite_false]
    cases catalog.find? (fun r => decide (r.id = slotIdOf sv)) with
    | none => exact h
    | some r => exact foldl_processIng_inv _ _ _ h

lemma runSlots_inv (catalog : List Recipe) (slots : List SlotVal) :
    AggInv (runSlots catalog slots) := by
  unfold runSlots
  have h0 : AggInv ⟨[], []⟩ := ⟨List.nodup_nil, List.nodup_nil, by simp⟩
  generalize hst : (⟨[], []⟩ : AggSt) = st at h0
  clear hst
  induction slots generalizing st with
  | nil => exact h0
  | cons sv rest ih => exact ih _ (processSlot_inv _ _ _ h0)

lemma str_pipes : str "||" = ['|', '|'] := rfl

lemma findOcc_keyOf (n u : Str) (h : noPipe n) :
    findOcc (str "||") (keyOf n u) = some n.length := by
  induction n with
  | nil =>
    show findOcc (str "||") (str "||" ++ u) = some 0
    rw [str_pipes]
    simp [findOcc, startsW, List.take]
  | cons c n' ih =>
    have hc : c ≠ '|' := by
      intro hcc
      exact h (hcc ▸ List.mem_cons_self c n')
    have h' : noPipe n' := fun hm => h (List.mem_cons_of_mem _ hm)
    have hns : ¬ startsW (str "||") (c :: (n' ++ str "||" ++ u)) := by
      rw [str_pipes]
      intro hs
      unfold startsW at hs
      simp [List.take] at hs
      exact hc hs.1
    show findOcc (str "||") (c :: (n' ++ str "||" ++ u)) =
      some (n'.length + 1)
    simp only [findOcc, if_neg hns]
    rw [show n' ++ str "||" ++ u = keyOf n' u from rfl, ih h']
    rfl

lemma keyOf_assoc (n u : Str) : keyOf n u = n ++ (str "||" ++ u) := by
  unfold keyOf
  rw [List.append_assoc]

lemma firstComp_keyOf (n u : Str) (h : noPipe n) :
    firstComp (keyOf n u) = n := by
  unfold firstComp
  rw [findOcc_keyOf n u h]
  show List.take n.length (keyOf n u) = n
  rw [keyOf_assoc]
  exact List.take_left n _

lemma secondComp_keyOf (n u : Str) (h : noPipe n) :
    secondComp (keyOf n u) = some (firstComp u) := by
  unfold secondComp
  rw [findOcc_keyOf n u h]
  show some (firstComp ((keyOf n u).drop (n.length + 2))) =
    some (firstComp u)
  have hdrop : (keyOf n u).drop (n.length + 2) = u := by
    rw [keyOf_assoc, ← List.drop_drop, List.drop_left, str_pipes]
    rfl
  rw [hdrop]

lemma keyOf_inj_unit {n u₁ u₂ : Str} (h : keyOf n u₁ = keyOf n u₂) :
    u₁ = u₂ := by
  unfold keyOf at h
  exact List.append_cancel_left h

lemma lexLe_total (a b : Str) : lexLe a b = true ∨ lexLe b a = true := by
  induction a generalizing b with
  | nil => exact Or.inl rfl
  | cons x xs ih =>
    cases b with
    | nil => exact Or.inr rfl
    | cons y ys =>
      by_cases h₁ : x.toNat < y.toNat
      · exact Or.inl (by simp [lexLe, h₁])
      · by_cases h₂ : y.toNat < x.toNat
        · exact Or.inr (by simp [lexLe, h₂])
        · rcases ih ys with h | h
          · exact Or.inl (by simp [lexLe, h₁, h₂, h])
          · exact Or.inr (by simp [lexLe, h₁, h₂, h])

lemma lexLe_trans {a b c : Str} (hab : lexLe a b = true)
    (hbc : lexLe b c = true) : lexLe a c = true := by
  induction a generalizing b c with
  | nil => rfl
  | cons x xs ih =>
    cases b with
    | nil => simp [lexLe] at hab
    | cons y ys =>
      cases c with
      | nil => simp [lexLe] at hbc
      | cons z zs =>
        simp only [lexLe] at hab hbc ⊢
        by_cases h₁ : x.toNat < y.toNat
        · by_cases h₂ : y.toNat < z.toNat
          · simp [Nat.lt_trans h₁ h₂]
          · by_cases h₃ : z.toNat < y.toNat
            · simp [h₂, h₃] at hbc
            · have : y.toNat = z.toNat := Nat.le_antisymm
                (Nat.le_of_not_lt h₃) (Nat.le_of_not_lt h₂)
              simp [this ▸ h₁]
        · by_cases h₄ : y.toNat < x.toNat
          · simp [h₁, h₄] at hab
          · have hxy : x.toNat = y.toNat := Nat.le_antisymm
              (Nat.le_of_not_lt h₄) (Nat.le_of_not_lt h₁)
            simp only [h₁, h₄, if_false, ite_self, if_neg] at hab
            by_cases h₂ : y.toNat < z.toNat
            · simp [hxy ▸ h₂]
            · by_cases h₃ : z.toNat < y.toNat
              · simp [h₂, h₃] at hbc
              · have hyz : y.toNat = z.toNat := Nat.le_antisymm
                  (Nat.le_of_not_lt h₃) (Nat.le_of_not_lt h₂)
                have h₅ : ¬ x.toNat < z.toNat := hyz ▸ hxy ▸ lt_irrefl _
                have h₆ : ¬ z.toNat < x.toNat := hyz ▸ hxy ▸ lt_irrefl _
                simp only [h₂, h₃, if_false, if_neg] at hbc
                · simp only [h₅, h₆, if_false, if_neg]
                  exact ih (by simpa [h₁, h₄] using hab) (by simpa using hbc)

instance : IsTotal Str dispLe :=
  ⟨fun a b => lexLe_total (frKey a) (frKey b)⟩

instance : IsTrans Str dispLe :=
  ⟨fun _ _ _ hab hbc => lexLe_trans hab hbc⟩

lemma contribOf_linear (f : ℚ) (ing : Ingredient) :
    contribOf f ing = (contribOf 1 ing).map (fun p => (p.1, f * p.2)) := by
  unfold contribOf
  cases hp : parseIngredientClient ing with
  | none => rfl
  | some p =>
    by_cases hn : p.name = []
    · simp [hn]
    · cases hq : p.qty with
      | none => simp [hn, hq]
      | some q =>
        simp only [hn, hq, if_neg hn]
        cases hc : unitCategory ((jsOrNull p.unit).bind normalizeUnit) with
        | none =>
          simp only [toBase, ite_false, Option.map_some', Option.some.injEq,
            Prod.mk.injEq, true_and]
          ring
        | some c =>
          cases c <;>
            · simp only [toBase, ite_false, Option.map_some',
                Option.some.injEq, Prod.mk.injEq, true_and]
              ring

lemma sumFor_contribs_linear (f : ℚ) (ings : List Ingredient) (k : Str) :
    sumFor (ings.filterMap (contribOf f)) k =
      f * sumFor (ings.filterMap (contribOf 1)) k := by
  induction ings with
  | nil => simp [sumFor]
  | cons i rest ih =>
    rw [List.filterMap_cons, List.filterMap_cons, contribOf_linear f i]
    cases contribOf 1 i with
    | none => simpa using ih
    | some p =>
      simp only [Option.map_some, sumFor, ih]
      rw [mul_add, mul_ite, mul_zero]

lemma qtyVal_nonneg (d : Str) (fo : Option Str) : 0 ≤ qtyVal d fo := by
  cases fo with
  | none => simp [qtyVal]
  | some fd =>
    unfold qtyVal
    have h1 : (0:ℚ) ≤ (digitsToNat d : ℚ) := by positivity
    have h2 : (0:ℚ) ≤ (digitsToNat fd : ℚ) / (10:ℚ) ^ fd.length := by
      positivity
    simpa using add_nonneg h1 h2

lemma parseLead_qty_nonneg (t : Str) (q : ℚ) (u : Option Str) (nm : Str)
    (h : parseLead t = some (q, u, nm)) : 0 ≤ q := by
  unfold parseLead at h
  by_cases hd : t.takeWhile isDigit = []
  · simp [hd] at h
  · simp only [if_neg hd] at h
    split at h
    · split at h
      · simp only [Option.some.injEq, Prod.mk.injEq] at h
        exact h.1 ▸ qtyVal_nonneg _ _
      · split at h
        · simp only [Option.some.injEq, Prod.mk.injEq] at h
          exact h.1 ▸ qtyVal_nonneg _ _
        · exact absurd h (by simp)
    · split at h
      · simp only [Option.some.injEq, Prod.mk.injEq] at h
        exact h.1 ▸ qtyVal_nonneg _ _
      · exact absurd h (by simp)

lemma parse_qty_nonneg (ing : Ingredient) (hn : nonnegIng ing) (p : Parsed)
    (hp : parseIngredientClient ing = some p) (q : ℚ) (hq : p.qty = some q) :
    0 ≤ q := by
  cases ing with
  | structured qf uf nf rf =>
    unfold parseIngredientClient at hp
    cases Option.some.inj hp
    simp only at hq
    cases qf with
    | none => simp at hq
    | some o =>
      cases o with
      | none => simp at hq
      | some q' =>
        simp only [Option.bind_some, id] at hq
        cases Option.some.inj hq
        exact hn
  | text s =>
    unfold parseIngredientClient at hp
    by_cases ht : jsTrim s = []
    · simp [ht] at hp
    · simp only [if_neg ht] at hp
      split at hp
      · rename_i q0 u0 nm0 hl
        cases Option.some.inj hp
        simp only [Option.some.injEq] at hq
        exact hq ▸ parseLead_qty_nonneg _ _ _ _ hl
      · cases Option.some.inj hp
        simp at hq

lemma lookupQ_mem {tbl : List (Str × ℚ)} {u : Str} {f : ℚ}
    (h : lookupQ tbl u = some f) : ∃ p ∈ tbl, p.2 = f := by
  induction tbl with
  | nil => simp [lookupQ] at h
  | cons p rest ih =>
    obtain ⟨k, v⟩ := p
    by_cases hk : k = u
    · simp only [lookupQ, if_pos hk] at h
      exact ⟨(k, v), List.mem_cons_self _ _, Option.some.inj h⟩
    · simp only [lookupQ, if_neg hk] at h
      obtain ⟨p', hp', hv⟩ := ih h
      exact ⟨p', List.mem_cons_of_mem _ hp', hv⟩

lemma unitFactor_nonneg (tbl : List (Str × ℚ))
    (htbl : ∀ p ∈ tbl, 0 ≤ p.2) (u : Option Str) :
    0 ≤ unitFactor tbl u := by
  cases u with
  | none => norm_num [unitFactor]
  | some uu =>
    show 0 ≤ (match lookupQ tbl uu with | some f => f | none => 1 : ℚ)
    cases hl : lookupQ tbl uu with
    | none => norm_num
    | some f =>
      obtain ⟨p, hp, hv⟩ := lookupQ_mem hl
      simpa using hv ▸ htbl p hp

lemma mass_vals_nonneg : ∀ p ∈ MASS_UNITS, 0 ≤ p.2 := by
  intro p hp
  fin_cases hp <;> norm_num

lemma volume_vals_nonneg : ∀ p ∈ VOLUME_UNITS, 0 ≤ p.2 := by
  intro p hp
  fin_cases hp <;> norm_num

lemma contribOf_nonneg (f : ℚ) (hf : 0 ≤ f) (ing : Ingredient)
    (hni : nonnegIng ing) (p : Str × ℚ) (hc : contribOf f ing = some p) :
    0 ≤ p.2 := by
  unfold contribOf at hc
  cases hp : parseIngredientClient ing with
  | none => rw [hp] at hc; simp at hc
  | some pi =>
    rw [hp] at hc
    by_cases hn : pi.name = []
    · simp [hn] at hc
    · simp only [if_neg hn] at hc
      cases hq : pi.qty with
      | none => rw [hq] at hc; simp at hc
      | some q =>
        rw [hq] at hc
        have hq0 : 0 ≤ q := parse_qty_nonneg ing hni pi hp q hq
        have hqf : 0 ≤ q * f := mul_nonneg hq0 hf
        cases hcat : unitCategory ((jsOrNull pi.unit).bind normalizeUnit) with
        | none =>
          rw [hcat] at hc
          simp only [toBase] at hc
          cases Option.some.inj hc
          exact hqf
        | some c =>
          rw [hcat] at hc
          cases c with
          | mass =>
            simp only [toBase] at hc
            cases Option.some.inj hc
            exact mul_nonneg hqf (unitFactor_nonneg _ mass_vals_nonneg _)
          | volume =>
            simp only [toBase] at hc
            cases Option.some.inj hc
            exact mul_nonneg hqf (unitFactor_nonneg _ volume_vals_nonneg _)
          | count =>
            simp only [toBase] at hc
            cases Option.some.inj hc
            exact hqf

lemma baseServOf_ge_one (r : Recipe) : 1 ≤ baseServOf r := by
  unfold baseServOf
  cases r.baseServings with
  | none => norm_num
  | some q =>
    by_cases hq : 1 ≤ q
    · simp only [if_pos hq]
      exact Int.le_floor.mpr (by exact_mod_cast hq)
    · simp [hq]

lemma slotDesired_ge_one (sv : SlotVal) (d : ℤ) (h : slotDesired sv = some d) :
    1 ≤ d := by
  cases sv with
  | absent => simp [slotDesired] at h
  | strId i => simp [slotDesired] at h
  | obj i so =>
    cases so with
    | none => simp [slotDesired] at h
    | some o =>
      cases o with
      | none => simp [slotDesired] at h
      | some q =>
        unfold slotDesired at h
        by_cases hq : 1 ≤ q
        · simp only [if_pos hq] at h
          cases Option.some.inj h
          exact Int.le_floor.mpr (by exact_mod_cast hq)
        · simp [hq] at h

lemma slotScale_nonneg (r : Recipe) (sv : SlotVal) : 0 ≤ slotScale r sv := by
  unfold slotScale
  have hb : (0:ℚ) ≤ (baseServOf r : ℚ) := by
    have := baseServOf_ge_one r
    exact_mod_cast le_trans zero_le_one this
  have hd : (0:ℚ) ≤ ((slotDesired sv).getD (baseServOf r) : ℚ) := by
    cases hs : slotDesired sv with
    | none => simpa [hs] using hb
    | some d =>
      have := slotDesired_ge_one sv d hs
      simp only [hs, Option.getD_some]
      exact_mod_cast le_trans zero_le_one this
  exact div_nonneg hd hb

lemma sumFor_nonneg (l : List (Str × ℚ)) (h : ∀ p ∈ l, 0 ≤ p.2) (k : Str) :
    0 ≤ sumFor l k := by
  induction l with
  | nil => simp [sumFor]
  | cons p rest ih =>
    obtain ⟨k', v⟩ := p
    unfold sumFor
    have hv : (0:ℚ) ≤ v := h (k', v) (List.mem_cons_self _ _)
    have hrest : 0 ≤ sumFor rest k :=
      ih (fun p hp => h p (List.mem_cons_of_mem _ hp))
    by_cases hk : k' = k
    · simpa [hk] using add_nonneg hv hrest
    · simpa [hk] using hrest

lemma runContribs_nonneg (catalog : List Recipe) (slots : List SlotVal)
    (h : ∀ r ∈ catalog, ∀ ing ∈ r.ingredients, nonnegIng ing) :
    ∀ p ∈ runContribs catalog slots, 0 ≤ p.2 := by
  induction slots with
  | nil => simp [runContribs]
  | cons sv rest ih =>
    intro p hp
    simp only [runContribs, List.mem_append] at hp
    rcases hp with hp | hp
    · unfold slotContribs at hp
      by_cases hid : slotIdOf sv = []
      · simp [hid] at hp
      · simp only [hid, ite_false] at hp
        cases hfind : List.find? (fun r => decide (r.id = slotIdOf sv))
            catalog with
        | none => rw [hfind] at hp; simp at hp
        | some r =>
          rw [hfind] at hp
          have hr : r ∈ catalog := List.mem_of_find?_eq_some hfind
          obtain ⟨ing, hing, hcon⟩ := List.mem_filterMap.mp hp
          exact contribOf_nonneg _ (slotScale_nonneg r sv) ing
            (h r hr ing hing) p hcon
    · exact ih p hp

lemma slotDesired_slotFor (rid : Str) (s : ℕ) (hs : 1 ≤ s) :
    slotDesired (slotFor rid s) = some (s : ℤ) := by
  show (if 1 ≤ (s:ℚ) then some ⌊(s:ℚ)⌋ else none) = some (s : ℤ)
  rw [if_pos (by exact_mod_cast hs)]
  norm_num

lemma slotScale_slotFor (rid : Str) (b : Option ℚ) (ings : List Ingredient)
    (s : ℕ) (hs : 1 ≤ s) :
    slotScale ⟨rid, b, ings⟩ (slotFor rid s) =
      (s : ℚ) / (baseServOf ⟨rid, b, ings⟩ : ℚ) := by
  unfold slotScale
  rw [slotDesired_slotFor rid s hs]
  norm_num

lemma slotContribs_slotFor (rid : Str) (hrid : rid ≠ []) (b : Option ℚ)
    (ings : List Ingredient) (s : ℕ) (hs : 1 ≤ s) :
    slotContribs [⟨rid, b, ings⟩] (slotFor rid s) =
      ings.filterMap
        (contribOf ((s : ℚ) / (baseServOf ⟨rid, b, ings⟩ : ℚ))) := by
  unfold slotContribs
  have hid : slotIdOf (slotFor rid s) = rid := rfl
  rw [hid, if_neg hrid]
  have hfind : List.find? (fun r => decide (r.id = rid))
      [(⟨rid, b, ings⟩ : Recipe)] = some ⟨rid, b, ings⟩ := by
    simp [List.find?]
  rw [hfind]
  show ings.filterMap
      (contribOf (slotScale ⟨rid, b, ings⟩ (slotFor rid s))) = _
  rw [slotScale_slotFor rid b ings s hs]

/-- C1: the claim states that a name recorded under any quantified total key
never also appears as a bare line.  This fails when the name contains the
key delimiter `||`: the name `a||b` has the quantified total key
`a||b||unit`, whose first split component is `a`, so the bare `a||b` line
survives the dedup filter and the output shows the name both quantified
(corrupted to `1 b a`) and bare. -/
theorem c1_counterexample :
    keyOf (str "a||b") (str "unit") ∈
      ((runSlots c1exCatalog c1exSlots).sums.map Prod.fst) ∧
    str "a||b" ∈ bareLines c1exCatalog c1exSlots ∧
    groceryItems c1exCatalog c1exSlots = [str "1 b a", str "a||b"] := by
  with_unfolding_all decide

/-- C1 (amended): the final output has at most one bare line per name, and a
name containing no `|` character never appears bare when a quantified total
was recorded for it under any canonical unit; for names containing the `||`
delimiter the dedup filter can miss, as the counterexample shows. -/
theorem c1_bare_dedup_amended (catalog : List Recipe)
    (slots : List SlotVal) :
    (bareLines catalog slots).Nodup ∧
    ∀ n u : Str, noPipe n →
      keyOf n u ∈ ((runSlots catalog slots).sums.map Prod.fst) →
      n ∉ bareLines catalog slots := by
  constructor
  · have hinv := runSlots_inv catalog slots
    exact List.Nodup.filter _ hinv.2.1
  · intro n u hnp hkey hmem
    unfold bareLines at hmem
    rw [List.mem_filter] at hmem
    obtain ⟨-, hfil⟩ := hmem
    simp only [decide_eq_true_eq] at hfil
    apply hfil
    obtain ⟨p, hp, hpk⟩ := List.mem_map.mp hkey
    exact List.mem_map.mpr ⟨p, hp, by rw [hpk, firstComp_keyOf n u hnp]⟩

/-- Witness for the amended C1 at a concrete run containing a quantified
`x` line. -/
theorem c1_bare_dedup_witness :
    str "x" ∉ bareLines c1wCatalog c1wSlots ∧
    (bareLines c1wCatalog c1wSlots).Nodup :=
  ⟨(c1_bare_dedup_amended c1wCatalog c1wSlots).2 (str "x") (str "unit")
      (by decide) (by with_unfolding_all decide),
    (c1_bare_dedup_amended c1wCatalog c1wSlots).1⟩

/-- C2: `normalizeName` is not idempotent: a doubly-prefixed name loses one
French preposition per application, so the second application still changes
the result. -/
theorem c2_counterexample :
    normalizeName (normalizeName (str "de de sel")) ≠
      normalizeName (str "de de sel") := by decide

/-- C2 (amended): `normalizeName` is not idempotent in general (see the
counterexample), but re-normalizing is the identity on every singular form of
the irregular table — so inputs normalizing into the table are stable — and
the suffix rules never strip a word ending in `-ss`. -/
theorem c2_idempotent_amended :
    (∀ x : Str, normalizeName x ∈ IRREGULARS.map Prod.snd →
      normalizeName (normalizeName x) = normalizeName x) ∧
    (∀ y : Str, endsW (str "ss") y → suffixRules y = y) := by
  constructor
  · have hv : ∀ v ∈ IRREGULARS.map Prod.snd, normalizeName v = v := by
      decide
    intro x hx
    exact hv _ hx
  · intro y hss
    obtain ⟨hl2, hd2⟩ := hss
    rw [show (str "ss").length = 2 from rfl] at hl2 hd2
    have h1 : ¬ endsW (str "ies") y := by
      rintro ⟨hl, hd⟩
      rw [show (str "ies").length = 3 from rfl] at hl hd
      have harith : y.length - 3 + 1 = y.length - 2 := by omega
      have hcontr : str "es" = str "ss" := by
        calc str "es" = (str "ies").drop 1 := rfl
          _ = (y.drop (y.length - 3)).drop 1 := by rw [hd]
          _ = y.drop (y.length - 3 + 1) := by rw [List.drop_drop]
          _ = y.drop (y.length - 2) := by rw [harith]
          _ = str "ss" := hd2
      exact absurd hcontr (by decide)
    have h2 : ¬ endsW (str "es") y := by
      rintro ⟨hl, hd⟩
      rw [show (str "es").length = 2 from rfl] at hl hd
      have hcontr : str "es" = str "ss" := by rw [← hd, hd2]
      exact absurd hcontr (by decide)
    have h4 : ¬ endsW (str "eaux") y := by
      rintro ⟨hl, hd⟩
      rw [show (str "eaux").length = 4 from rfl] at hl hd
      have harith : y.length - 4 + 2 = y.length - 2 := by omega
      have hcontr : str "ux" = str "ss" := by
        calc str "ux" = (str "eaux").drop 2 := rfl
          _ = (y.drop (y.length - 4)).drop 2 := by rw [hd]
          _ = y.drop (y.length - 4 + 2) := by rw [List.drop_drop]
          _ = y.drop (y.length - 2) := by rw [harith]
          _ = str "ss" := hd2
      exact absurd hcontr (by decide)
    have hss' : endsW (str "ss") y := by
      refine ⟨?_, ?_⟩
      · rw [show (str "ss").length = 2 from rfl]
        exact hl2
      · rw [show (str "ss").length = 2 from rfl]
        exact hd2
    unfold suffixRules
    rw [if_neg h1, if_neg (fun hc => h2 hc.1),
      if_neg (fun hc => hc.2 hss'), if_neg h4]

/-- Witness for the amended C2: an irregular plural re-normalizes stably and
a word ending `-ss` passes the suffix rules unchanged. -/
theorem c2_idempotent_witness :
    normalizeName (normalizeName (str "tomatoes")) =
      normalizeName (str "tomatoes") ∧
    suffixRules (str "glass") = str "glass" :=
  ⟨c2_idempotent_amended.1 (str "tomatoes") (by decide),
   c2_idempotent_amended.2 (str "glass") (by decide)⟩

/-- C3: the claim's ordering (quantified lines sorted by name then unit,
then bare lines) does not hold: `renderGroceryList` sorts the finished
display strings, so quantified lines order by their leading quantity text.
Here the name-sorted order would put the `a` line first, but the rendered
output puts `100 g b` before `2 pièces a`. -/
theorem c3_counterexample :
    renderedGrocery c3exCatalog c3exSlots ≠
      specRenderC3 c3exCatalog c3exSlots ∧
    renderedGrocery c3exCatalog c3exSlots =
      [str "100 g b", str "2 pièces a"] ∧
    specRenderC3 c3exCatalog c3exSlots =
      [str "2 pièces a", str "100 g b"] := by
  with_unfolding_all decide

/-- C3 (amended): the rendered grocery list is a permutation of the generated
display lines (quantified lines in map insertion order, then surviving bare
names), sorted as whole display strings by the French base-sensitivity
comparator — not by name and then canonical unit. -/
theorem c3_render_sorted_amended (catalog : List Recipe)
    (slots : List SlotVal) :
    (renderedGrocery catalog slots).Perm (groceryItems catalog slots) ∧
    List.Sorted dispLe (renderedGrocery catalog slots) :=
  ⟨List.perm_insertionSort dispLe _, List.sorted_insertionSort dispLe _⟩

/-- C4: a slot whose servings value is invalid (here `0`) is not treated as
1 serving: the aggregator falls back to the recipe's base servings (4), so
the scale factor is 1, while the claim's reading would give 1/4. -/
theorem c4_counterexample :
    slotScale ⟨str "r", some 4, []⟩ (.obj (some (str "r")) (some (some 0)))
        ≠ specScaleC4 ⟨str "r", some 4, []⟩
          (.obj (some (str "r")) (some (some 0))) ∧
    slotScale ⟨str "r", some 4, []⟩ (.obj (some (str "r")) (some (some 0)))
        = 1 ∧
    specScaleC4 ⟨str "r", some 4, []⟩
        (.obj (some (str "r")) (some (some 0))) = 1/4 := by
  with_unfolding_all decide

/-- C4 (amended): a missing, invalid or non-positive recipe `baseServings`
is clamped to 1; a missing, invalid or non-positive slot servings value
instead defaults to the recipe's clamped base servings, which makes the
slot's scale factor exactly 1 (not `1 / baseServings`). -/
theorem c4_clamp_amended (r : Recipe) (sv : SlotVal) :
    (slotDesired sv = none → slotScale r sv = 1) ∧
    ((r.baseServings = none ∨ ∃ q, r.baseServings = some q ∧ q < 1) →
      baseServOf r = 1) := by
  constructor
  · intro h
    unfold slotScale
    rw [h]
    simp only [Option.getD_none]
    have hb := baseServOf_ge_one r
    have hbq : (baseServOf r : ℚ) ≠ 0 := by
      have : (1:ℚ) ≤ (baseServOf r : ℚ) := by exact_mod_cast hb
      linarith
    exact div_self hbq
  · rintro (h | ⟨q, hq, hlt⟩)
    · unfold baseServOf
      rw [h]
    · unfold baseServOf
      rw [hq]
      show (if 1 ≤ q then ⌊q⌋ else 1) = 1
      rw [if_neg (not_le.mpr hlt)]

/-- Witness for the amended C4: an absent servings value scales by 1 and an
absent base servings clamps to 1. -/
theorem c4_clamp_witness :
    slotScale ⟨str "r", none, []⟩ SlotVal.absent = 1 ∧
    baseServOf ⟨str "r", none, []⟩ = 1 :=
  ⟨(c4_clamp_amended ⟨str "r", none, []⟩ SlotVal.absent).1 (by decide),
   (c4_clamp_amended ⟨str "r", none, []⟩ SlotVal.absent).2 (Or.inl rfl)⟩

/-- C5: quantified totals are keyed by the pair of normalized name and
canonical unit: the string keys `name||u₁` and `name||u₂` differ for
different canonical units, the map's key list stays duplicate-free (one line
per key), and the total under each key sums exactly the contributions
recorded with that key, so totals of different canonical units never
merge. -/
theorem c5_distinct_units (catalog : List Recipe) (slots : List SlotVal)
    (n u₁ u₂ : Str) (h₁ : u₁ ∈ canonicalUnits) (h₂ : u₂ ∈ canonicalUnits)
    (hne : u₁ ≠ u₂) :
    keyOf n u₁ ≠ keyOf n u₂ ∧
    ((runSlots catalog slots).sums.map Prod.fst).Nodup ∧
    mapGet (runSlots catalog slots).sums (keyOf n u₁) =
      contribTotal catalog slots (keyOf n u₁) ∧
    mapGet (runSlots catalog slots).sums (keyOf n u₂) =
      contribTotal catalog slots (keyOf n u₂) :=
  ⟨fun h => hne (keyOf_inj_unit h), (runSlots_inv catalog slots).1,
    runSlots_mapGet _ _ _, runSlots_mapGet _ _ _⟩

/-- Witness for C5 at the canonical mass and volume units. -/
theorem c5_distinct_units_witness :
    keyOf (str "flour") (str "g") ≠ keyOf (str "flour") (str "ml") :=
  (c5_distinct_units [] [] (str "flour") (str "g") (str "ml")
    (by decide) (by decide) (by decide)).1

/-- C6: aggregation is linear in servings: for a recipe with a valid base
servings value, running it in two slots with servings `s₁` and `s₂` records,
under every quantified key, exactly the total recorded by one slot with
servings `s₁ + s₂` (exact in the rational model). -/
theorem c6_linearity (rid : Str) (b : ℚ) (ings : List Ingredient)
    (s₁ s₂ : ℕ) (hb : 1 ≤ b) (h₁ : 1 ≤ s₁) (h₂ : 1 ≤ s₂) (k : Str) :
    mapGet (runSlots [⟨rid, some b, ings⟩]
        [slotFor rid s₁, slotFor rid s₂]).sums k =
      mapGet (runSlots [⟨rid, some b, ings⟩]
        [slotFor rid (s₁ + s₂)]).sums k := by
  by_cases hrid : rid = []
  · subst hrid
    have h1 : ∀ (st : AggSt) (s : ℕ),
        processSlot [⟨[], some b, ings⟩] st (slotFor [] s) = st := by
      intro st s
      simp [processSlot, slotIdOf, slotFor]
    unfold runSlots
    simp only [List.foldl_cons, List.foldl_nil, h1]
  · rw [runSlots_mapGet, runSlots_mapGet]
    unfold contribTotal
    simp only [runContribs, List.append_nil]
    rw [sumFor_append,
      slotContribs_slotFor rid hrid (some b) ings s₁ h₁,
      slotContribs_slotFor rid hrid (some b) ings s₂ h₂,
      slotContribs_slotFor rid hrid (some b) ings (s₁ + s₂) (by omega),
      sumFor_contribs_linear ((s₁ : ℚ) /
        (baseServOf ⟨rid, some b, ings⟩ : ℚ)) ings k,
      sumFor_contribs_linear ((s₂ : ℚ) /
        (baseServOf ⟨rid, some b, ings⟩ : ℚ)) ings k,
      sumFor_contribs_linear (((s₁ + s₂ : ℕ) : ℚ) /
        (baseServOf ⟨rid, some b, ings⟩ : ℚ)) ings k]
    push_cast
    ring

/-- Witness for C6: scenario with a single mass ingredient, split 1 + 1
versus 2 servings. -/
theorem c6_linearity_witness :
    mapGet (runSlots [⟨str "r", some 1, [.text (str "100 g x")]⟩]
        [slotFor (str "r") 1, slotFor (str "r") 1]).sums
        (keyOf (str "x") (str "g")) =
      mapGet (runSlots [⟨str "r", some 1, [.text (str "100 g x")]⟩]
        [slotFor (str "r") 2]).sums (keyOf (str "x") (str "g")) :=
  c6_linearity (str "r") 1 [.text (str "100 g x")] 1 1 (le_refl 1)
    (le_refl 1) (le_refl 1) (keyOf (str "x") (str "g"))

/-- C7: the parser does not return `null` for an entry whose normalized name
is empty: the free-text entry `es` (whose name normalizes to the empty
string via the `-es` suffix rule) parses to a `ParsedIngredient` with an
empty name instead of `null`. -/
theorem c7_counterexample :
    parseIngredientClient (.text (str "es")) =
      some ⟨none, none, [], str "es"⟩ := by
  with_unfolding_all rfl

/-- C7 (amended): the parser returns `null` exactly for free-text entries
that trim to the empty string; structured entries always yield a
`ParsedIngredient` (possibly with an empty name); the aggregator separately
skips parsed entries with empty names, so no names-only entry is ever
empty. -/
theorem c7_parse_null_amended :
    (∀ s : Str, parseIngredientClient (.text s) = none ↔ jsTrim s = []) ∧
    (∀ qf uf nf rf,
      (parseIngredientClient (.structured qf uf nf rf)).isSome = true) ∧
    (∀ catalog slots n, n ∈ (runSlots catalog slots).namesOnly →
      n ≠ []) := by
  refine ⟨?_, ?_, ?_⟩
  · intro s
    unfold parseIngredientClient
    by_cases ht : jsTrim s = []
    · simp [ht]
    · simp only [if_neg ht]
      constructor
      · intro h
        split at h
        · exact absurd h (by simp)
        · exact absurd h (by simp)
      · intro h
        exact absurd h ht
  · intro qf uf nf rf
    rfl
  · intro catalog slots n hn
    exact (runSlots_inv catalog slots).2.2 n hn

/-- Witness for the amended C7: a whitespace-only free-text entry is the
case that parses to `null`. -/
theorem c7_parse_null_witness :
    parseIngredientClient (.text (str " ")) = none :=
  (c7_parse_null_amended.1 (str " ")).mpr (by decide)

/-- C8: a structured ingredient entry with a caller-supplied negative
quantity produces a negative quantified total, so totals are not always
non-negative. -/
theorem c8_counterexample :
    mapGet (runSlots c8exCatalog c8exSlots).sums
        (keyOf (str "x") (str "unit")) = -5 ∧
    ¬ (0 ≤ mapGet (runSlots c8exCatalog c8exSlots).sums
        (keyOf (str "x") (str "unit"))) := by
  with_unfolding_all decide

/-- C8 (amended): when every structured entry of the catalog carries a
non-negative quantity (free-text quantities are non-negative by the digit
syntax), every quantified total of every aggregation run is at least 0. -/
theorem c8_nonneg_amended (catalog : List Recipe) (slots : List SlotVal)
    (h : ∀ r ∈ catalog, ∀ ing ∈ r.ingredients, nonnegIng ing) (k : Str) :
    0 ≤ mapGet (runSlots catalog slots).sums k := by
  rw [runSlots_mapGet]
  exact sumFor_nonneg _ (runContribs_nonneg catalog slots h) k

/-- Witness for the amended C8 on a free-text catalog. -/
theorem c8_nonneg_witness :
    0 ≤ mapGet (runSlots c8wCatalog c8wSlots).sums
      (keyOf (str "flour") (str "g")) :=
  c8_nonneg_amended c8wCatalog c8wSlots (by decide)
    (keyOf (str "flour") (str "g"))

/-- C9: the plural unit noun is chosen from the raw total, not the rounded
one: a count total of 1.004 rounds to the displayed `1` yet renders as
`1 pièces x`, while the claim's rounded-total rule would render
`1 pièce x`. -/
theorem c9_counterexample :
    groceryItems c9exCatalog c9exSlots = [str "1 pièces x"] ∧
    specItemOfC9 (keyOf (str "x") (str "unit"), (251/250 : ℚ)) =
      str "1 pièce x" ∧
    jsRound2 (251/250) = 1 := by
  with_unfolding_all decide

/-- C9 (amended): mass and volume canonical units are never pluralized, the
`unit` canonical unit renders as the plural noun exactly when the raw
(pre-rounding) total exceeds 1, and the displayed quantity is the 2-decimal
rounded value (formatting the rounded value changes nothing, and the model
drops trailing zero fraction digits by construction). -/
theorem c9_format_amended (n : Str) (t : ℚ) (hn : noPipe n) :
    dispUnit (keyOf n (str "g")) t = str "g" ∧
    dispUnit (keyOf n (str "ml")) t = str "ml" ∧
    (dispUnit (keyOf n (str "unit")) t = str "pièces" ↔ 1 < t) ∧
    formatNumber t = formatNumber (jsRound2 t) := by
  have hg := secondComp_keyOf n (str "g") hn
  have hml := secondComp_keyOf n (str "ml") hn
  have hu := secondComp_keyOf n (str "unit") hn
  refine ⟨?_, ?_, ?_, ?_⟩
  · unfold dispUnit
    rw [hg]
    with_unfolding_all rfl
  · unfold dispUnit
    rw [hml]
    with_unfolding_all rfl
  · unfold dispUnit
    rw [hu]
    show (if firstComp (str "unit") = str "unit" then
        (if 1 < t then str "pièces" else str "pièce")
      else firstComp (str "unit")) = str "pièces" ↔ 1 < t
    rw [show firstComp (str "unit") = str "unit" from rfl, if_pos rfl]
    constructor
    · intro he
      by_contra hlt
      rw [if_neg hlt] at he
      exact absurd he (by decide)
    · intro hlt
      rw [if_pos hlt]
  · have hfloor : ⌊jsRound2 t * 100 + 1/2⌋ = ⌊t * 100 + 1/2⌋ := by
      unfold jsRound2
      rw [div_mul_cancel₀ _ (by norm_num : (100:ℚ) ≠ 0), Int.floor_int_add]
      have h0 : ⌊(1/2 : ℚ)⌋ = 0 := by
        rw [Int.floor_eq_zero_iff]
        constructor <;> norm_num
      rw [h0, add_zero]
    unfold formatNumber
    exact congrArg renderRounded hfloor.symm

/-- Witness for the amended C9 at a pipe-free name and total 2. -/
theorem c9_format_witness :
    dispUnit (keyOf (str "x") (str "g")) 2 = str "g" ∧
    dispUnit (keyOf (str "x") (str "ml")) 2 = str "ml" ∧
    (dispUnit (keyOf (str "x") (str "unit")) 2 = str "pièces" ↔
      1 < (2:ℚ)) ∧
    formatNumber 2 = formatNumber (jsRound2 2) :=
  c9_format_amended (str "x") 2 (by decide)

lemma foldl_synStep_id (tbl : List (List Str × Str)) (u : Str)
    (h : ∀ p ∈ tbl, u ∉ p.1) :
    tbl.foldl (fun acc p => if acc ∈ p.1 then p.2 else acc) u = u := by
  induction tbl with
  | nil => rfl
  | cons p rest ih =>
    simp only [List.foldl_cons]
    rw [if_neg (h p (List.mem_cons_self _ _))]
    exact ih (fun p' hp' => h p' (List.mem_cons_of_mem _ hp'))

lemma mem_synonymKeys_of (tbl : List (List Str × Str)) (p : List Str × Str)
    (hp : p ∈ tbl) (x : Str) (hx : x ∈ p.1) :
    x ∈ tbl.foldr (fun p acc => p.1 ++ acc) [] := by
  induction tbl with
  | nil => simp at hp
  | cons q rest ih =>
    simp only [List.foldr_cons, List.mem_append]
    rcases List.mem_cons.mp hp with h | h
    · exact Or.inl (h ▸ hx)
    · exact Or.inr (ih h)

lemma applySynonyms_id (u : Str) (h : u ∉ synonymKeys) :
    applySynonyms u = u := by
  unfold applySynonyms
  refine foldl_synStep_id _ _ ?_
  intro p hp hx
  exact h (mem_synonymKeys_of SYNONYMS p hp u hx)

/-- C10: `normalizeUnit` returns `null` exactly for the empty input and for
cleaned tokens equal to a mis-captured French preposition; every other
input whose cleaned lowercased form is not a tested spelling of the synonym
chain passes through unchanged. -/
theorem c10_passthrough :
    (∀ s : Str, normalizeUnit s = none ↔
      (s = [] ∨ cleanUnit s ∈ PREP_TOKENS)) ∧
    (∀ s : Str, s ≠ [] → cleanUnit s ∉ PREP_TOKENS →
      cleanUnit s ∉ synonymKeys →
      normalizeUnit s = some (cleanUnit s)) := by
  constructor
  · intro s
    unfold normalizeUnit
    by_cases hs : s = []
    · simp [hs]
    · by_cases hp : cleanUnit s ∈ PREP_TOKENS
      · simp [hs, hp]
      · simp [hs, hp]
  · intro s hs hp hk
    unfold normalizeUnit
    rw [if_neg hs, if_neg hp, applySynonyms_id _ hk]

/-- Witness for C10: the unknown unit spelling `pincée` passes through
unchanged. -/
theorem c10_passthrough_witness :
    normalizeUnit (str "pincée") = some (cleanUnit (str "pincée")) :=
  c10_passthrough.2 (str "pincée") (by decide) (by decide) (by decide)

end OurMeals
